import Mathlib

set_option maxRecDepth 4000

/-!
Verification development for the zsh completion capture plugin
(src/plugin.py of deathaxe/ZshCompletions).

The plugin has two processing layers:

1. the embedded zsh script `ZSH_CAPTURE_COMPLETION` whose final loop
   (source lines 131-139) reads the pty stream line by line (lines are
   LF-terminated; `read -r` strips the LF, so lines keep a trailing CR),
   toggles on lines whose suffix is a NUL byte followed by CR, and echoes
   the lines between the two toggles to stdout;

2. the Python method `ZshCompletionListener.completion_items`
   (source lines 232-251), which decodes the captured bytes as UTF-8,
   splits on CRLF, splits each line on the first occurrence of " -- ",
   filters words that appear in `KNOWN_COMPLETIONS` or earlier in the
   same batch, and yields `sublime.CompletionItem` records.

Python strings are modelled as `List Char` (all relevant inputs are
valid UTF-8, and `str(data, encoding="utf-8")` is a bijection onto the
decoded code points). The module-global `KNOWN_COMPLETIONS` set is
passed as an explicit `known` argument; sets are modelled as lists with
membership. The state machine of `on_query_completions`
(source lines 181-230) is modelled by `get_completions` / `request`
over an explicit launch-result datatype.
-/

/-- Characters of the literal separator " -- " used when splitting a raw
candidate line into word and description (source line 237). -/
def descSep : List Char := " -- ".data

/-- Characters of the fallback description "file or folder"
(source line 250). -/
def defaultDetails : List Char := "file or folder".data

/-- Characters of the constant marker "ZSH" attached to every produced
completion item (source line 248). -/
def annZSH : List Char := "ZSH".data

/-- Leftmost-occurrence split, modelling Python `s.split(sep, 1)`:
`breakOn sep s = some (a, b)` when `s = a ++ sep ++ b` with the
occurrence of `sep` leftmost, and `none` when `sep` does not occur
in `s`. Only used with non-empty separators. -/
def breakOn (sep : List Char) : List Char → Option (List Char × List Char)
  | [] => none
  | c :: cs =>
    if sep.isPrefixOf (c :: cs) then some ([], (c :: cs).drop sep.length)
    else
      match breakOn sep cs with
      | none => none
      | some (a, b) => some (c :: a, b)

/-- Modelling Python `s.split("\r\n")` (source line 236): greedy
left-to-right split on the two-character separator CR LF. Always
returns at least one chunk, matching `"".split("\r\n") == [""]`. -/
def splitCRLF : List Char → List (List Char)
  | [] => [[]]
  | [c] => [[c]]
  | c₁ :: c₂ :: cs =>
    if c₁ = '\r' ∧ c₂ = '\n' then [] :: splitCRLF cs
    else
      match splitCRLF (c₂ :: cs) with
      | [] => [[c₁]]
      | l :: ls => (c₁ :: l) :: ls

/-- Split on the single character LF, keeping all chunks (the chunk after
the final LF included). Used to model the zsh `while IFS= read -r line`
loop, which consumes LF-terminated lines. -/
def splitLF : List Char → List (List Char)
  | [] => [[]]
  | c :: cs =>
    if c = '\n' then [] :: splitLF cs
    else
      match splitLF cs with
      | [] => [[c]]
      | l :: ls => (c :: l) :: ls

/-- Whether the two-character sequence CR LF occurs somewhere in `s`. -/
def hasCRLF : List Char → Bool
  | [] => false
  | c :: cs => (c == '\r' && cs.head? == some '\n') || hasCRLF cs

/-- Join chunks with CR LF between consecutive chunks (no trailing
separator): the inverse of `splitCRLF` on CRLF-free chunks. -/
def joinCRLF : List (List Char) → List Char
  | [] => []
  | [x] => x
  | x :: y :: xs => x ++ '\r' :: '\n' :: joinCRLF (y :: xs)

/-- Lines consumed by the zsh reading loop: `read -r` yields exactly the
LF-terminated lines of the stream (each line keeps its trailing CR, the
unterminated tail after the last LF is never processed). -/
def readLines (s : List Char) : List (List Char) :=
  (splitLF s).dropLast

/-- Characters of the sentinel suffix: a NUL byte followed by CR. -/
def sentinelSuffix : List Char := ['\x00', '\r']

/-- Sentinel test of the zsh capture loop, source line 134:
`[[ $line == *$'\0\r' ]]` — the line ends with NUL CR. -/
def isSentinel (l : List Char) : Bool :=
  sentinelSuffix.isSuffixOf l

/-- The zsh capture loop, source lines 131-139: `tog` starts at 0; a
sentinel line increments it (`(( tog++ )) && return 0 || continue`),
stopping the loop when `tog` was already non-zero; a non-sentinel line
is echoed iff `tog` is non-zero (`(( tog )) && echo -E - $line`). -/
def captureLoop : Nat → List (List Char) → List (List Char)
  | _, [] => []
  | tog, l :: ls =>
    if isSentinel l then
      if tog ≠ 0 then [] else captureLoop (tog + 1) ls
    else if tog ≠ 0 then l :: captureLoop tog ls
    else captureLoop tog ls

/-- The zsh-side Output Parser applied to the raw pty byte stream:
read LF-terminated lines and run the sentinel toggle loop. -/
def captureBytes (s : List Char) : List (List Char) :=
  captureLoop 0 (readLines s)

/-- Completion kind identifier, modelling the `sublime.KindId` value used
by the plugin (source line 234 uses `sublime.KindId.NAMESPACE`). -/
inductive KindId where
  | NAMESPACE
deriving DecidableEq

/-- The constant kind triple `[sublime.KindId.NAMESPACE, "f", "Filesystem"]`
of source line 234. -/
def zshKind : KindId × List Char × List Char :=
  (KindId.NAMESPACE, "f".data, "Filesystem".data)

/-- One produced completion record, modelling the `sublime.CompletionItem`
constructed at source lines 246-251. The keyword argument `annotation`
is modelled by the field `annot`. -/
structure CompletionItem where
  trigger : List Char
  annot : List Char
  kind : KindId × List Char × List Char
  details : List Char
deriving DecidableEq

/-- Word of a raw candidate line: `parts = line.split(" -- ", 1)` and
`word = parts[0]` (source lines 237-238). -/
def lineWord (line : List Char) : List Char :=
  match breakOn descSep line with
  | none => line
  | some (a, _) => a

/-- Details of a raw candidate line: `parts[1] if len(parts) > 1 else
"file or folder"` (source line 250). -/
def lineDetails (line : List Char) : List Char :=
  match breakOn descSep line with
  | none => defaultDetails
  | some (_, b) => b

/-- The per-line loop body of `completion_items` (source lines 236-251):
skip when the word is in `KNOWN_COMPLETIONS` or in `found`; otherwise
add the word to `found` and yield a `CompletionItem`. -/
def itemsGo (known : List (List Char)) (found : List (List Char)) :
    List (List Char) → List CompletionItem
  | [] => []
  | line :: rest =>
    if lineWord line ∈ known then itemsGo known found rest
    else if lineWord line ∈ found then itemsGo known found rest
    else
      ⟨lineWord line, annZSH, zshKind, lineDetails line⟩ ::
        itemsGo known (lineWord line :: found) rest

/-- ZshCompletionListener.completion_items (source lines 232-251): decode
the captured bytes, split on CRLF, and run the normalizing loop with
`found` initially empty. The `pfx` argument models the `prefix`
parameter of the Python method, which the body never reads; `known`
models the module-global `KNOWN_COMPLETIONS`. -/
def completion_items (data : List Char) (pfx : List Char)
    (known : List (List Char)) : List CompletionItem :=
  itemsGo known [] (splitCRLF data)

/-- Line serialization of one record back into the wire line format of
the protocol (`<word>` or `<word> -- <description>`): a record carrying
the default description corresponds to a bare `<word>` line. -/
def serializeItem (r : CompletionItem) : List Char :=
  if r.details = defaultDetails then r.trigger
  else r.trigger ++ descSep ++ r.details

/-- Line serialization of a batch of records: one line per record,
joined by CRLF. -/
def serializeItems (rs : List CompletionItem) : List Char :=
  joinCRLF (rs.map serializeItem)

/-- Well-formedness invariant of every record produced by `itemsGo` on
CRLF-free lines: constant marker and kind, CRLF-free word and details,
the word contains no " -- " separator, and the details either are the
default or reparse from `word ++ " -- " ++ details` at exactly this
split (because that concatenation is the original source line). -/
def itemOK (r : CompletionItem) : Prop :=
  r.annot = annZSH ∧ r.kind = zshKind ∧
  hasCRLF r.trigger = false ∧ hasCRLF r.details = false ∧
  breakOn descSep r.trigger = none ∧
  (r.details = defaultDetails ∨
    breakOn descSep (r.trigger ++ descSep ++ r.details) =
      some (r.trigger, r.details))

/-- Result of one subprocess launch as classified by the `try` block of
`get_completions` (source lines 201-225): captured bytes on success, or
one of the three caught exception classes (`TimeoutExpired`,
`CalledProcessError` with its return code, `FileNotFoundError`). -/
inductive LaunchResult where
  | success (data : List Char)
  | timeout
  | calledProcessError (returncode : Int)
  | fileNotFound
deriving DecidableEq

/-- The inner `get_completions` closure (source lines 191-227) run with
session flag `enabled`: returns the new flag value and the candidate
list handed to `set_completions` (`none` when the closure returns
early without setting completions). Timeout: return, flag unchanged.
CalledProcessError: disable iff the return code is 1 or 2, return.
FileNotFoundError: disable, return. Success: set the normalized items,
flag unchanged. -/
def get_completions (enabled : Bool) (res : LaunchResult)
    (pfx : List Char) (known : List (List Char)) :
    Bool × Option (List CompletionItem) :=
  match res with
  | .success data => (enabled, some (completion_items data pfx known))
  | .timeout => (enabled, none)
  | .calledProcessError rc =>
    if rc = 1 ∨ rc = 2 then (false, none) else (enabled, none)
  | .fileNotFound => (false, none)

/-- Observable outcome of one completion request: the session flag after
the request, the candidate list (`none` when no candidates were
delivered), and whether a subprocess launch was attempted. -/
structure RequestOutcome where
  enabledAfter : Bool
  completions : Option (List CompletionItem)
  launched : Bool
deriving DecidableEq

/-- One completion request (source lines 181-230): when `self.enabled` is
false the handler returns `None` immediately, before any subprocess
launch; otherwise the launch runs and `get_completions` classifies its
result. -/
def request (enabled : Bool) (res : LaunchResult) (pfx : List Char)
    (known : List (List Char)) : RequestOutcome :=
  if enabled then
    let r := get_completions enabled res pfx known
    (⟨r.1, r.2, true⟩ : RequestOutcome)
  else
    (⟨false, none, false⟩ : RequestOutcome)

/-- A sequence of completion requests threaded through the session flag:
each element carries the launch result the subprocess would produce,
the query prefix and the known-words set of that request. -/
def runRequests (enabled : Bool) :
    List (LaunchResult × List Char × List (List Char)) →
    Bool × List RequestOutcome
  | [] => (enabled, [])
  | (res, pfx, known) :: rest =>
    let o := request enabled res pfx known
    let r := runRequests o.enabledAfter rest
    (r.1, o :: r.2)

theorem itemsGo_trigger_not_mem (lines : List (List Char)) :
    ∀ known found, ∀ r ∈ itemsGo known found lines,
      r.trigger ∉ known ∧ r.trigger ∉ found := by
  induction lines with
  | nil => intro known found r hr; simp [itemsGo] at hr
  | cons line rest ih =>
    intro known found r hr
    simp only [itemsGo] at hr
    split at hr
    · exact ih known found r hr
    · split at hr
      · exact ih known found r hr
      · next hk hf =>
        rcases List.mem_cons.mp hr with h | h
        · subst h; exact ⟨hk, hf⟩
        · have h2 := ih known (lineWord line :: found) r h
          exact ⟨h2.1, fun hmem => h2.2 (List.mem_cons_of_mem _ hmem)⟩

theorem itemsGo_triggers_nodup (lines : List (List Char)) :
    ∀ known found, ((itemsGo known found lines).map CompletionItem.trigger).Nodup := by
  induction lines with
  | nil => intro known found; simp [itemsGo]
  | cons line rest ih =>
    intro known found
    simp only [itemsGo]
    split
    · exact ih known found
    · split
      · exact ih known found
      · simp only [List.map_cons, List.nodup_cons]
        refine ⟨fun hmem => ?_, ih known _⟩
        rcases List.mem_map.mp hmem with ⟨r, hr, htrig⟩
        have h2 := itemsGo_trigger_not_mem rest known (lineWord line :: found) r hr
        exact h2.2 (htrig ▸ List.mem_cons_self _ _)

/-- C1: the claim expects the pipeline on bytes
"\x00\r\r\nfoo -- a file\r\nbar\r\n\x00\r\r\n" with empty KnownWords to
yield exactly the records for the lines between the sentinels,
[(foo, a file), (bar, file or folder)]. It does not: `completion_items`
performs no sentinel framing at all, and the zsh capture loop (the layer
that does) detects no sentinel in these bytes either, because its test is
a NUL-CR suffix on LF-split lines and the LF-split lines here end in
CR CR. -/
theorem C1_counterexample :
    completion_items "\x00\r\r\nfoo -- a file\r\nbar\r\n\x00\r\r\n".data [] [] ≠
      [⟨"foo".data, annZSH, zshKind, "a file".data⟩,
       ⟨"bar".data, annZSH, zshKind, defaultDetails⟩] ∧
    captureBytes "\x00\r\r\nfoo -- a file\r\nbar\r\n\x00\r\r\n".data = [] := by
  decide

/-- C1 (amended): `completion_items` applied to those bytes yields one
record per CRLF-separated chunk that survives the duplicate filter —
including the sentinel chunks and the empty chunk after the final CRLF —
and the zsh capture loop emits nothing for these bytes because no
LF-split line carries the NUL-CR suffix. -/
theorem C1_amended_eval :
    completion_items "\x00\r\r\nfoo -- a file\r\nbar\r\n\x00\r\r\n".data [] [] =
      [⟨"\x00\r".data, annZSH, zshKind, defaultDetails⟩,
       ⟨"foo".data, annZSH, zshKind, "a file".data⟩,
       ⟨"bar".data, annZSH, zshKind, defaultDetails⟩,
       ⟨[], annZSH, zshKind, defaultDetails⟩] ∧
    captureBytes "\x00\r\r\nfoo -- a file\r\nbar\r\n\x00\r\r\n".data = [] := by
  decide

/-- C2: with the session enabled, a launch that exits 0 with empty output
leaves the session enabled, but does not yield zero candidate records:
`"".split("\r\n")` is `[""]`, so one `CompletionItem` with an empty
trigger word is produced. This evaluates the code at the failing
input. -/
theorem C2_empty_output_eval :
    request true (.success []) [] [] =
      ⟨true, some [⟨[], annZSH, zshKind, defaultDetails⟩], true⟩ := by
  decide

/-- C3: with the session enabled, the session flag becomes disabled after
a request iff the launch raised FileNotFoundError or CalledProcessError
with return code 1 or 2; a timeout or a CalledProcessError with any
other code delivers no candidates and leaves the flag unchanged, and a
successful launch never disables. -/
theorem C3_state_machine (pfx : List Char) (known : List (List Char))
    (rc : Int) (data : List Char) :
    (∀ res : LaunchResult,
      (request true res pfx known).enabledAfter = false ↔
        (res = .fileNotFound ∨
          res = .calledProcessError 1 ∨ res = .calledProcessError 2)) ∧
    request true .timeout pfx known = ⟨true, none, true⟩ ∧
    request true (.calledProcessError rc) pfx known =
      ⟨if rc = 1 ∨ rc = 2 then false else true, none, true⟩ ∧
    (request true (.success data) pfx known).enabledAfter = true := by
  refine ⟨fun res => ?_, ?_, ?_, ?_⟩
  · cases res with
    | success d => simp [request, get_completions]
    | timeout => simp [request, get_completions]
    | calledProcessError rc' =>
      by_cases h : rc' = 1 ∨ rc' = 2
      · rcases h with h | h <;> subst h <;> simp [request, get_completions]
      · push_neg at h
        simp [request, get_completions, h.1, h.2]
    | fileNotFound => simp [request, get_completions]
  · simp [request, get_completions]
  · by_cases h : rc = 1 ∨ rc = 2 <;> simp [request, get_completions, h]
  · simp [request, get_completions]

/-- C4: a request arriving with the session disabled launches nothing,
delivers no candidates and leaves the session disabled, and any
sequence of requests starting from the disabled state behaves the same
way at every step. -/
theorem C4_disable_monotone :
    (∀ (res : LaunchResult) (pfx : List Char) (known : List (List Char)),
      request false res pfx known = ⟨false, none, false⟩) ∧
    ∀ reqs : List (LaunchResult × List Char × List (List Char)),
      runRequests false reqs =
        (false, reqs.map fun _ => (⟨false, none, false⟩ : RequestOutcome)) := by
  refine ⟨fun res pfx known => by simp [request], fun reqs => ?_⟩
  induction reqs with
  | nil => rfl
  | cons req rest ih =>
    obtain ⟨res, pfx, known⟩ := req
    simp [runRequests, request, ih]

/-- C5: for every batch of raw candidate lines and every KnownWords set,
the normalizer emits no two records with the same word, and no record
whose word is a member of KnownWords. -/
theorem C5_nodup_and_known_filter (lines known : List (List Char)) :
    ((itemsGo known [] lines).map CompletionItem.trigger).Nodup ∧
    List.Disjoint ((itemsGo known [] lines).map CompletionItem.trigger) known := by
  refine ⟨itemsGo_triggers_nodup lines known [], fun w hw hk => ?_⟩
  rcases List.mem_map.mp hw with ⟨r, hr, htrig⟩
  exact (itemsGo_trigger_not_mem lines known [] r hr).1 (htrig ▸ hk)

/-- C6: on lines whose words are a, b, a, c with a, b, c pairwise
distinct and empty KnownWords, the normalizer outputs the words in
first-appearance order [a, b, c] — no sorting is performed. -/
theorem C6_first_appearance_order (a b c : List Char)
    (hab : a ≠ b) (hac : a ≠ c) (hbc : b ≠ c)
    (ha : breakOn descSep a = none) (hb : breakOn descSep b = none)
    (hc : breakOn descSep c = none) :
    (itemsGo [] [] [a, b, a, c]).map CompletionItem.trigger = [a, b, c] := by
  have hwa : lineWord a = a := by simp [lineWord, ha]
  have hwb : lineWord b = b := by simp [lineWord, hb]
  have hwc : lineWord c = c := by simp [lineWord, hc]
  simp [itemsGo, hwa, hwb, hwc, hab.symm, hac.symm, hbc.symm, hab, hac, hbc]

/-- C6 witness at the concrete words a, b, c. -/
theorem C6_witness :
    (itemsGo [] [] [['a'], ['b'], ['a'], ['c']]).map CompletionItem.trigger =
      [['a'], ['b'], ['c']] :=
  C6_first_appearance_order ['a'] ['b'] ['c']
    (by decide) (by decide) (by decide) (by decide) (by decide) (by decide)

theorem captureLoop_no_sentinel (ls : List (List Char))
    (h : ∀ l ∈ ls, isSentinel l = false) : captureLoop 0 ls = [] := by
  induction ls with
  | nil => rfl
  | cons l ls ih =>
    have hl := h l (List.mem_cons_self _ _)
    simp only [captureLoop, hl, Bool.false_eq_true, if_false, ne_eq,
      not_true_eq_false, if_neg (fun hh : (0 : Nat) ≠ 0 => hh rfl)]
    exact ih fun x hx => h x (List.mem_cons_of_mem _ hx)

theorem captureLoop_emit_all (post : List (List Char))
    (h : ∀ l ∈ post, isSentinel l = false) : captureLoop 1 post = post := by
  induction post with
  | nil => rfl
  | cons l ls ih =>
    have hl := h l (List.mem_cons_self _ _)
    simp only [captureLoop, hl, Bool.false_eq_true, if_false, ne_eq,
      if_pos (fun hh : (1 : Nat) = 0 => Nat.one_ne_zero hh)]
    exact congrArg (l :: ·) (ih fun x hx => h x (List.mem_cons_of_mem _ hx))

theorem captureLoop_split (pre post : List (List Char)) (s : List Char)
    (hs : isSentinel s = true) (hpre : ∀ l ∈ pre, isSentinel l = false)
    (hpost : ∀ l ∈ post, isSentinel l = false) :
    captureLoop 0 (pre ++ s :: post) = post := by
  induction pre with
  | nil =>
    simp only [List.nil_append, captureLoop, hs, if_pos, ne_eq,
      not_true_eq_false, if_neg (fun hh : (0 : Nat) ≠ 0 => hh rfl)]
    exact captureLoop_emit_all post hpost
  | cons l pre ih =>
    have hl := hpre l (List.mem_cons_self _ _)
    simp only [List.cons_append, captureLoop, hl, Bool.false_eq_true, if_false,
      ne_eq, not_true_eq_false, if_neg (fun hh : (0 : Nat) ≠ 0 => hh rfl)]
    exact ih fun x hx => hpre x (List.mem_cons_of_mem _ hx)

/-- C7: the claim says that raw output with zero or one sentinel line
parses to an empty candidate sequence. False for one sentinel: the
concrete bytes "\x00\r\nfoo\r\n" contain exactly one sentinel line and
the capture loop emits the line after it. -/
theorem C7_counterexample :
    (readLines "\x00\r\nfoo\r\n".data).countP (fun l => isSentinel l) = 1 ∧
    captureBytes "\x00\r\nfoo\r\n".data ≠ [] := by
  decide

/-- C7 (amended): raw output with zero sentinel lines parses to the empty
sequence, and raw output with exactly one sentinel line parses to the
(possibly non-empty) list of complete lines after that sentinel; the
parsing loop itself is total and raises no error either way. -/
theorem C7_amended :
    (∀ bs : List Char,
      (∀ l ∈ readLines bs, isSentinel l = false) → captureBytes bs = []) ∧
    (∀ (bs : List Char) (pre post : List (List Char)) (s : List Char),
      readLines bs = pre ++ s :: post → isSentinel s = true →
      (∀ l ∈ pre, isSentinel l = false) →
      (∀ l ∈ post, isSentinel l = false) →
      captureBytes bs = post) := by
  constructor
  · intro bs h
    exact captureLoop_no_sentinel _ h
  · intro bs pre post s hsplit hs hpre hpost
    unfold captureBytes
    rw [hsplit]
    exact captureLoop_split pre post s hs hpre hpost

/-- C7 witness: a zero-sentinel input parses to nothing, and a
one-sentinel input parses to the lines after the sentinel. -/
theorem C7_amended_witness :
    captureBytes "foo\r\n".data = [] ∧
    captureBytes "\x00\r\nbar\r\n".data = ["bar\r".data] := by
  constructor
  · exact C7_amended.1 "foo\r\n".data (by decide)
  · exact C7_amended.2 "\x00\r\nbar\r\n".data [] ["bar\r".data] "\x00\r".data
      (by decide) (by decide) (by decide) (by decide)

/-- C9: the claim says every produced record has a non-empty word. False:
on empty input bytes (and on any data ending in CRLF) the record list
contains an item whose trigger word is empty. -/
theorem C9_empty_word_eval :
    completion_items [] [] [] = [⟨[], annZSH, zshKind, defaultDetails⟩] ∧
    ∃ r ∈ completion_items [] [] [], r.trigger = [] := by
  decide

/-- C10: `completion_items` never reads its `prefix` parameter, so the
produced records are identical for any two prefixes on the same data
and known-words set. -/
theorem C10_prefix_independent (data p₁ p₂ : List Char)
    (known : List (List Char)) :
    completion_items data p₁ known = completion_items data p₂ known := rfl

theorem isPrefixOfIff (l₁ l₂ : List Char) : l₁.isPrefixOf l₂ = true ↔ l₁ <+: l₂ :=
  List.isPrefixOf_iff_prefix

theorem breakOn_eq_append (sep s : List Char) :
    ∀ a b, breakOn sep s = some (a, b) → s = a ++ sep ++ b := by
  induction s with
  | nil => intro a b h; simp [breakOn] at h
  | cons c cs ih =>
    intro a b h
    simp only [breakOn] at h
    split at h
    · next hpre =>
      injection h with h'
      rw [Prod.mk.injEq] at h'
      obtain ⟨ha, hb⟩ := h'
      subst ha; subst hb
      obtain ⟨t, ht⟩ : sep <+: (c :: cs) := isPrefixOfIff sep _ |>.mp hpre
      rw [← ht, List.drop_left, List.nil_append]
    · split at h
      · simp at h
      · next a' b' heq =>
        injection h with h'
        rw [Prod.mk.injEq] at h'
        obtain ⟨ha, hb⟩ := h'
        subst ha; subst hb
        rw [List.cons_append, List.cons_append, ← ih a' b' heq]

theorem breakOn_before_none (sep s : List Char) :
    ∀ a b, breakOn sep s = some (a, b) → breakOn sep a = none := by
  induction s with
  | nil => intro a b h; simp [breakOn] at h
  | cons c cs ih =>
    intro a b h
    simp only [breakOn] at h
    split at h
    · injection h with h'
      rw [Prod.mk.injEq] at h'
      rw [← h'.1]
      rfl
    · next hpre =>
      split at h
      · simp at h
      · next a' b' heq =>
        injection h with h'
        rw [Prod.mk.injEq] at h'
        obtain ⟨ha, hb⟩ := h'
        subst ha
        have iha := ih a' b' heq
        simp only [breakOn]
        rw [if_neg, iha]
        intro hcon
        apply hpre
        have h1 : sep <+: (c :: a') := isPrefixOfIff sep _ |>.mp hcon
        have h2 : (c :: a') <+: (c :: cs) := by
          rw [breakOn_eq_append sep cs a' b' heq]
          exact ⟨sep ++ b', by simp⟩
        exact isPrefixOfIff sep _ |>.mpr (h1.trans h2)

theorem hasCRLF_cons_ne (c : Char) (cs : List Char) (h : (c == '\r') = false) :
    hasCRLF (c :: cs) = hasCRLF cs := by
  simp [hasCRLF, h]

theorem hasCRLF_append_left (a b : List Char) (h : hasCRLF (a ++ b) = false) :
    hasCRLF a = false := by
  induction a with
  | nil => rfl
  | cons c a ih =>
    simp only [List.cons_append, hasCRLF, Bool.or_eq_false_iff] at h ⊢
    refine ⟨?_, ih h.2⟩
    cases a with
    | nil => simp
    | cons x a' => simpa using h.1

theorem hasCRLF_append_right (a b : List Char) (h : hasCRLF (a ++ b) = false) :
    hasCRLF b = false := by
  induction a with
  | nil => exact h
  | cons c a ih =>
    simp only [List.cons_append, hasCRLF, Bool.or_eq_false_iff] at h
    exact ih h.2

theorem hasCRLF_sep_append (a b : List Char) (ha : hasCRLF a = false)
    (hb : hasCRLF b = false) : hasCRLF (a ++ descSep ++ b) = false := by
  induction a with
  | nil =>
    show hasCRLF (' ' :: '-' :: '-' :: ' ' :: b) = false
    rw [hasCRLF_cons_ne _ _ (by decide), hasCRLF_cons_ne _ _ (by decide),
      hasCRLF_cons_ne _ _ (by decide), hasCRLF_cons_ne _ _ (by decide)]
    exact hb
  | cons c a ih =>
    simp only [hasCRLF, Bool.or_eq_false_iff] at ha
    have ih' := ih ha.2
    simp only [List.cons_append, List.append_assoc] at ih' ⊢
    simp only [hasCRLF, Bool.or_eq_false_iff]
    refine ⟨?_, ih'⟩
    cases a with
    | nil =>
      show (c == '\r' && (descSep ++ b).head? == some '\n') = false
      simp [descSep]
    | cons x a' => simpa using ha.1

theorem splitCRLF_ne_nil : ∀ s : List Char, splitCRLF s ≠ []
  | [] => by simp [splitCRLF]
  | [c] => by simp [splitCRLF]
  | c₁ :: c₂ :: cs => by
    simp only [splitCRLF]
    split
    · simp
    · split <;> simp

theorem splitCRLF_cons₂ (c₁ c₂ : Char) (cs : List Char)
    (h : ¬(c₁ = '\r' ∧ c₂ = '\n')) :
    splitCRLF (c₁ :: c₂ :: cs) =
      match splitCRLF (c₂ :: cs) with
      | [] => [[c₁]]
      | l :: ls => (c₁ :: l) :: ls := by
  simp only [splitCRLF]
  rw [if_neg h]

theorem splitCRLF_single : ∀ x : List Char, hasCRLF x = false → splitCRLF x = [x]
  | [], _ => rfl
  | [c], _ => rfl
  | c₁ :: c₂ :: cs, h => by
    simp only [hasCRLF, Bool.or_eq_false_iff, List.head?_cons,
      Bool.and_eq_false_iff] at h
    have hcrlf : ¬(c₁ = '\r' ∧ c₂ = '\n') := by
      rintro ⟨rfl, rfl⟩
      rcases h.1 with hx | hx <;> simp at hx
    have htail : hasCRLF (c₂ :: cs) = false := by
      simp only [hasCRLF, Bool.or_eq_false_iff, Bool.and_eq_false_iff]
      exact ⟨h.2.1, h.2.2⟩
    rw [splitCRLF_cons₂ _ _ _ hcrlf, splitCRLF_single (c₂ :: cs) htail]

theorem splitCRLF_append_crlf :
    ∀ x t : List Char, hasCRLF x = false →
      splitCRLF (x ++ '\r' :: '\n' :: t) = x :: splitCRLF t
  | [], t, _ => by simp [splitCRLF]
  | [c], t, h => by
    have hc : ¬(c = '\r' ∧ '\r' = '\n') := by
      rintro ⟨-, hh⟩; exact absurd hh (by decide)
    have hinner : splitCRLF ('\r' :: '\n' :: t) = [] :: splitCRLF t := by
      simp [splitCRLF]
    show splitCRLF (c :: '\r' :: '\n' :: t) = [c] :: splitCRLF t
    rw [splitCRLF_cons₂ _ _ _ hc, hinner]
  | c₁ :: c₂ :: x', t, h => by
    simp only [hasCRLF, Bool.or_eq_false_iff, List.head?_cons,
      Bool.and_eq_false_iff] at h
    have hcrlf : ¬(c₁ = '\r' ∧ c₂ = '\n') := by
      rintro ⟨rfl, rfl⟩
      rcases h.1 with hx | hx <;> simp at hx
    have hx' : hasCRLF (c₂ :: x') = false := by
      simp only [hasCRLF, Bool.or_eq_false_iff, Bool.and_eq_false_iff]
      exact ⟨h.2.1, h.2.2⟩
    have ih := splitCRLF_append_crlf (c₂ :: x') t hx'
    simp only [List.cons_append] at ih ⊢
    rw [splitCRLF_cons₂ _ _ _ hcrlf, ih]

theorem splitCRLF_head (c₂ : Char) (cs : List Char) :
    (splitCRLF (c₂ :: cs)).head? = some [] ∨
    ∃ l', (splitCRLF (c₂ :: cs)).head? = some (c₂ :: l') := by
  cases cs with
  | nil => exact Or.inr ⟨[], rfl⟩
  | cons c₃ cs' =>
    by_cases hc : c₂ = '\r' ∧ c₃ = '\n'
    · left
      simp only [splitCRLF, if_pos hc]
      rfl
    · right
      rw [splitCRLF_cons₂ _ _ _ hc]
      rcases hsp : splitCRLF (c₃ :: cs') with _ | ⟨l, ls⟩
      · exact absurd hsp (splitCRLF_ne_nil _)
      · exact ⟨l, rfl⟩

theorem splitCRLF_chunks : ∀ s : List Char, ∀ c ∈ splitCRLF s, hasCRLF c = false
  | [], c, hc => by
    simp only [splitCRLF, List.mem_singleton] at hc
    subst hc; rfl
  | [c₀], c, hc => by
    simp only [splitCRLF, List.mem_singleton] at hc
    subst hc; simp [hasCRLF]
  | c₁ :: c₂ :: cs, c, hc => by
    by_cases hcrlf : c₁ = '\r' ∧ c₂ = '\n'
    · simp only [splitCRLF, if_pos hcrlf] at hc
      rcases List.mem_cons.mp hc with rfl | hmem
      · rfl
      · exact splitCRLF_chunks cs c hmem
    · rw [splitCRLF_cons₂ _ _ _ hcrlf] at hc
      rcases hsp : splitCRLF (c₂ :: cs) with _ | ⟨l, ls⟩
      · exact absurd hsp (splitCRLF_ne_nil _)
      · rw [hsp] at hc
        rcases List.mem_cons.mp hc with rfl | hmem
        · have hl : hasCRLF l = false :=
            splitCRLF_chunks (c₂ :: cs) l (hsp ▸ List.mem_cons_self _ _)
          rcases splitCRLF_head c₂ cs with hh | ⟨l', hh⟩
          · rw [hsp] at hh
            simp only [List.head?_cons, Option.some.injEq] at hh
            subst hh
            simp [hasCRLF]
          · rw [hsp] at hh
            simp only [List.head?_cons, Option.some.injEq] at hh
            subst hh
            have hstep : hasCRLF (c₁ :: c₂ :: l') =
                ((c₁ == '\r' && ((c₂ :: l').head? == some '\n')) ||
                  hasCRLF (c₂ :: l')) := rfl
            rw [hstep, Bool.or_eq_false_iff]
            refine ⟨?_, hl⟩
            simp only [List.head?_cons]
            rw [Bool.and_eq_false_iff]
            by_cases h1 : c₁ = '\r'
            · right
              have h2 : c₂ ≠ '\n' := fun h2 => hcrlf ⟨h1, h2⟩
              simp [h2]
            · left; simp [h1]
        · exact splitCRLF_chunks (c₂ :: cs) c (hsp ▸ List.mem_cons_of_mem _ hmem)

theorem splitCRLF_joinCRLF :
    ∀ (x : List Char) (xs : List (List Char)),
      hasCRLF x = false → (∀ c ∈ xs, hasCRLF c = false) →
      splitCRLF (joinCRLF (x :: xs)) = x :: xs
  | x, [], hx, _ => by simp [joinCRLF, splitCRLF_single x hx]
  | x, y :: xs, hx, hxs => by
    have ih := splitCRLF_joinCRLF y xs (hxs y (List.mem_cons_self _ _))
      (fun c hc => hxs c (List.mem_cons_of_mem _ hc))
    show splitCRLF (x ++ '\r' :: '\n' :: joinCRLF (y :: xs)) = x :: y :: xs
    rw [splitCRLF_append_crlf x _ hx, ih]

theorem itemsGo_ok (lines : List (List Char)) :
    ∀ known found, (∀ l ∈ lines, hasCRLF l = false) →
      ∀ r ∈ itemsGo known found lines, itemOK r := by
  induction lines with
  | nil => intro known found _ r hr; simp [itemsGo] at hr
  | cons line rest ih =>
    intro known found hl r hr
    have hline := hl line (List.mem_cons_self _ _)
    have hrest := fun x hx => hl x (List.mem_cons_of_mem _ hx)
    simp only [itemsGo] at hr
    split at hr
    · exact ih known found hrest r hr
    · split at hr
      · exact ih known found hrest r hr
      · rcases List.mem_cons.mp hr with h | h
        · subst h
          rcases hbr : breakOn descSep line with - | ⟨a, b⟩
          · have hw : lineWord line = line := by simp [lineWord, hbr]
            have hd : lineDetails line = defaultDetails := by
              simp [lineDetails, hbr]
            refine ⟨rfl, rfl, ?_, ?_, ?_, Or.inl hd⟩
            · show hasCRLF (lineWord line) = false
              rw [hw]; exact hline
            · show hasCRLF (lineDetails line) = false
              rw [hd]; decide
            · show breakOn descSep (lineWord line) = none
              rw [hw]; exact hbr
          · have hw : lineWord line = a := by simp [lineWord, hbr]
            have hd : lineDetails line = b := by simp [lineDetails, hbr]
            have heq := breakOn_eq_append descSep line a b hbr
            refine ⟨rfl, rfl, ?_, ?_, ?_, Or.inr ?_⟩
            · show hasCRLF (lineWord line) = false
              rw [hw]
              exact hasCRLF_append_left a descSep
                (hasCRLF_append_left (a ++ descSep) b (heq ▸ hline))
            · show hasCRLF (lineDetails line) = false
              rw [hd]
              exact hasCRLF_append_right (a ++ descSep) b (heq ▸ hline)
            · show breakOn descSep (lineWord line) = none
              rw [hw]
              exact breakOn_before_none descSep line a b hbr
            · show breakOn descSep
                (lineWord line ++ descSep ++ lineDetails line) =
                  some (lineWord line, lineDetails line)
              rw [hw, hd, ← heq]
              exact hbr
        · exact ih known _ hrest r h

theorem itemsGo_serialize_id :
    ∀ (rs : List CompletionItem) (found : List (List Char)),
      (∀ r ∈ rs, itemOK r) →
      ((rs.map CompletionItem.trigger).Nodup) →
      (∀ r ∈ rs, r.trigger ∉ found) →
      itemsGo [] found (rs.map serializeItem) = rs
  | [], _, _, _, _ => rfl
  | r :: rs, found, hok, hnd, hf => by
    obtain ⟨hann, hkind, htcr, hdcr, htsep, hd⟩ := hok r (List.mem_cons_self _ _)
    have hw : lineWord (serializeItem r) = r.trigger ∧
        lineDetails (serializeItem r) = r.details := by
      by_cases hdef : r.details = defaultDetails
      · rw [serializeItem, if_pos hdef]
        exact ⟨by simp [lineWord, htsep], by simp [lineDetails, htsep, hdef]⟩
      · rcases hd with hd | hd
        · exact absurd hd hdef
        · rw [serializeItem, if_neg hdef]
          exact ⟨by unfold lineWord; rw [hd], by unfold lineDetails; rw [hd]⟩
    simp only [List.map_cons, List.nodup_cons] at hnd
    have hftr : r.trigger ∉ found := hf r (List.mem_cons_self _ _)
    have hfr' : ∀ x ∈ rs, x.trigger ∉ r.trigger :: found := by
      intro x hx
      rw [List.mem_cons]
      rintro (heq | hmem)
      · exact hnd.1 (heq ▸ List.mem_map_of_mem CompletionItem.trigger hx)
      · exact hf x (List.mem_cons_of_mem _ hx) hmem
    have ihr := itemsGo_serialize_id rs (r.trigger :: found)
      (fun x hx => hok x (List.mem_cons_of_mem _ hx)) hnd.2 hfr'
    simp only [List.map_cons, itemsGo, hw.1, hw.2]
    rw [if_neg (List.not_mem_nil _), if_neg hftr, ihr]
    have hr : (⟨r.trigger, annZSH, zshKind, r.details⟩ : CompletionItem) = r := by
      cases r
      simp only at hann hkind ⊢
      rw [hann, hkind]
    rw [hr]

theorem itemsGo_nonempty (line : List Char) (rest : List (List Char)) :
    itemsGo [] [] (line :: rest) ≠ [] := by
  simp [itemsGo]

/-- C8: re-running the normalizer on the line serialization of its own
output, with empty KnownWords in both runs, yields the same record
sequence unchanged, for every input and both prefixes. -/
theorem C8_idempotent (data pfx pfx' : List Char) :
    completion_items (serializeItems (completion_items data pfx [])) pfx' [] =
      completion_items data pfx [] := by
  have hOok := itemsGo_ok (splitCRLF data) [] [] (splitCRLF_chunks data)
  have hnd := itemsGo_triggers_nodup (splitCRLF data) [] []
  have hser : ∀ c ∈ (itemsGo [] [] (splitCRLF data)).map serializeItem,
      hasCRLF c = false := by
    intro c hc
    rcases List.mem_map.mp hc with ⟨r, hr, rfl⟩
    obtain ⟨-, -, htcr, hdcr, -, -⟩ := hOok r hr
    by_cases hdef : r.details = defaultDetails
    · rw [serializeItem, if_pos hdef]; exact htcr
    · rw [serializeItem, if_neg hdef]
      exact hasCRLF_sep_append _ _ htcr hdcr
  unfold completion_items serializeItems
  rcases hO : itemsGo [] [] (splitCRLF data) with - | ⟨r₀, rs⟩
  · rcases hsp : splitCRLF data with - | ⟨l, ls⟩
    · exact absurd hsp (splitCRLF_ne_nil data)
    · rw [hsp] at hO
      exact absurd hO (itemsGo_nonempty l ls)
  · rw [hO] at hOok hnd hser
    rw [List.map_cons] at hser ⊢
    rw [splitCRLF_joinCRLF _ _ (hser _ (List.mem_cons_self _ _))
      (fun c hc => hser c (List.mem_cons_of_mem _ hc)), ← List.map_cons]
    exact itemsGo_serialize_id (r₀ :: rs) [] hOok hnd
      (fun x _ => List.not_mem_nil _)
